import Mathlib

/-!
Verification of the function rewriter in `fix-async.py`.

The script's core is `fix_async_functions(content)`:

* it splits `content` on newline characters,
* scans the lines with a cursor; a line starting a function is recognized by
  `re.match` against
  `fn_pattern = r'(\s*)(pub\s+)?(fn\s+\w+(?:<[^>]+>)?(?:\([^)]*\))(?:\s*->\s*[^{]+)?)\s*\{'`,
* on a match it collects the function span: starting from brace depth 1 it
  accumulates following lines, adding `line.count('{') - line.count('}')`,
  while the depth stays positive and lines remain,
* if the accumulated body contains `'.await'` and the signature line does not
  contain `'async fn'`, the signature line is rewritten by
  `line.replace('fn ', 'async fn ', 1)`,
* the (possibly rewritten) span is appended to the output and the cursor jumps
  past the span; non-matching lines are copied one at a time,
* finally the output lines are joined with a single newline.

Everything below is a direct translation of that code.  Lines are `String`s,
machine text is modelled as `List Char` where character-level work is needed.
Literal brace characters are written with the escapes `\x7b` (opening) and
`\x7d` (closing).
-/

/-- Python's `\s` character class, restricted to the ASCII range that the tool
processes: space, tab, newline, carriage return, vertical tab, form feed. -/
def isPySpace (c : Char) : Bool :=
  c == ' ' || c == '\t' || c == '\n' || c == '\r' || c == '\x0b' || c == '\x0c'

/-- Python's `\w` character class (ASCII range): letters, digits, underscore. -/
def isWordChar (c : Char) : Bool :=
  c.isAlphanum || c == '_'

/-- Consume the regex atom `\s*` (maximal run of whitespace).  The run is
forced to be maximal because every atom that can follow it in `fn_pattern`
begins with a non-whitespace character, so backtracking cannot shorten it. -/
def dropSpaces (s : List Char) : List Char :=
  List.dropWhile isPySpace s

/-- Consume a literal character sequence, or fail. -/
def dropLit : List Char → List Char → Option (List Char)
  | [], s => some s
  | _ :: _, [] => none
  | c :: cs, x :: xs => if x = c then dropLit cs xs else none

/-- Consume the regex atom `(pub\s+)?`.  The group is attempted greedily; if
it cannot be completed the empty alternative is taken.  Committing to a
completed group is faithful to backtracking: whenever the group matches, the
input starts with `p`, so the empty alternative would make the following
literal `fn` fail anyway. -/
def dropPubOpt (s : List Char) : List Char :=
  match dropLit ('p' :: 'u' :: 'b' :: []) s with
  | none => s
  | some s1 =>
    match s1 with
    | [] => s
    | c :: _ => if isPySpace c then dropSpaces s1 else s

/-- Consume the regex atoms `fn\s+\w+`.  Both `\s+` and `\w+` are maximal
runs; maximality is forced because the follower of `\s+` is a word character
and the followers of `\w+` are `<` or `(`, none of which lie in the preceding
class. -/
def dropFnName (s : List Char) : Option (List Char) :=
  match dropLit ('f' :: 'n' :: []) s with
  | none => none
  | some s1 =>
    match s1 with
    | [] => none
    | c :: _ =>
      if isPySpace c then
        match dropSpaces s1 with
        | [] => none
        | c2 :: rest2 =>
          if isWordChar c2 then some (List.dropWhile isWordChar (c2 :: rest2))
          else none
      else none

/-- Consume the regex atom `(?:<[^>]+>)?`.  `[^>]+` necessarily stops at the
first `>`.  Committing to a completed group is faithful: when the input starts
with `<`, the empty alternative would make the following `\(` fail. -/
def dropGenericsOpt (s : List Char) : List Char :=
  match s with
  | [] => []
  | x :: rest =>
    if x = '<' then
      match List.dropWhile (fun c => c != '>') rest with
      | [] => x :: rest
      | y :: rest2 =>
        if y = '>' then
          if (List.takeWhile (fun c => c != '>') rest).isEmpty then x :: rest
          else rest2
        else x :: rest
    else x :: rest

/-- Consume the regex atom `\([^)]*\)`.  `[^)]*` necessarily stops at the
first `)`. -/
def dropParams (s : List Char) : Option (List Char) :=
  match s with
  | [] => none
  | x :: rest =>
    if x = '(' then
      match List.dropWhile (fun c => c != ')') rest with
      | [] => none
      | y :: rest2 => if y = ')' then some rest2 else none
    else none

/-- Does the character list start with an opening brace? -/
def headIsBrace : List Char → Bool
  | c :: _ => c == '\x7b'
  | [] => false

/-- Recognize the regex tail `(?:\s*->\s*[^{]+)?\s*\{`.  Recognition is the
disjunction of the two alternatives of the optional group.  For the
return-type alternative, `\s*` is absorbed into `[^{]+` (whitespace is not an
opening brace), so after `->` the requirement is a nonempty run of
non-brace characters followed by the first opening brace. -/
def tailMatches (s : List Char) : Bool :=
  headIsBrace (dropSpaces s) ||
  (match dropLit ('-' :: '>' :: []) (dropSpaces s) with
   | none => false
   | some r =>
     !(List.takeWhile (fun c => c != '\x7b') r).isEmpty &&
     headIsBrace (List.dropWhile (fun c => c != '\x7b') r))

/-- The test `re.match(fn_pattern, line)` of fix-async.py: does the line,
from its start, match
`(\s*)(pub\s+)?(fn\s+\w+(?:<[^>]+>)?(?:\([^)]*\))(?:\s*->\s*[^{]+)?)\s*\{`?
The captured groups are never used by the script, so a boolean recognizer is
the full translation. -/
def matchesFnPattern (line : String) : Bool :=
  match dropFnName (dropPubOpt (dropSpaces line.toList)) with
  | none => false
  | some s2 =>
    match dropParams (dropGenericsOpt s2) with
    | none => false
    | some s4 => tailMatches s4

/-- Python's substring test `pat in s`, on character lists. -/
def listContainsSub (pat : List Char) : List Char → Bool
  | [] => pat.isEmpty
  | c :: rest => pat.isPrefixOf (c :: rest) || listContainsSub pat rest

/-- Python's substring test `pat in s`, on strings. -/
def containsSubStr (pat s : String) : Bool :=
  listContainsSub pat.toList s.toList

/-- Python's `s.replace(pat, repl, 1)`: replace the first (leftmost)
occurrence of `pat`, on character lists. -/
def pyReplaceFirst (pat repl : List Char) : List Char → List Char
  | [] => if pat.isEmpty then repl else []
  | c :: rest =>
    if pat.isPrefixOf (c :: rest) then repl ++ List.drop pat.length (c :: rest)
    else c :: pyReplaceFirst pat repl rest

/-- Python's `s.replace(pat, repl, 1)`, on strings. -/
def replaceFirstStr (pat repl s : String) : String :=
  String.mk (pyReplaceFirst pat.toList repl.toList s.toList)

/-- The per-line brace balance `line.count('{') - line.count('}')`. -/
def braceDelta (l : String) : Int :=
  ((List.countP (fun c => c == '\x7b') l.toList : Nat) : Int) -
  ((List.countP (fun c => c == '\x7d') l.toList : Nat) : Int)

/-- The span-collecting loop of fix-async.py:

    while j < len(lines) and brace_count > 0:
        fn_lines.append(lines[j]); fn_body += lines[j] + "\n"
        brace_count += lines[j].count('{') - lines[j].count('}'); j += 1

`takeSpan d xs` returns (lines consumed after the signature, remaining lines,
accumulated `fn_body`), starting from brace depth `d` (the script starts at 1
for the opening brace assumed on the signature line). -/
def takeSpan : Int → List String → List String × List String × String
  | _, [] => ([], [], "")
  | d, x :: xs =>
    if d ≤ 0 then ([], x :: xs, "")
    else
      let t := takeSpan (d + braceDelta x) xs
      (x :: t.1, t.2.1, x ++ "\n" ++ t.2.2)

/-- The conditional rewrite applied to a matched signature line:

    if '.await' in fn_body:
        if 'async fn' not in line:
            line = line.replace('fn ', 'async fn ', 1)
-/
def rewriteSigLine (fnBody line : String) : String :=
  if containsSubStr ".await" fnBody then
    if containsSubStr "async fn" line then line
    else replaceFirstStr "fn " "async fn " line
  else line

/-- The main scanning loop of `fix_async_functions`, with an explicit fuel
argument used only as a termination measure (the loop consumes at least one
line per iteration, so any fuel of at least `lines.length` gives the loop's
behaviour; see `processAux_fuel`). -/
def processAux : Nat → List String → List String
  | 0, ls => ls
  | _ + 1, [] => []
  | n + 1, l :: rest =>
    if matchesFnPattern l then
      let s := takeSpan 1 rest
      rewriteSigLine s.2.2 l :: s.1 ++ processAux n s.2.1
    else
      l :: processAux n rest

/-- The scanning loop of `fix_async_functions` on a list of lines. -/
def processLines (lines : List String) : List String :=
  processAux lines.length lines

/-- The function `fix_async_functions(content)` of fix-async.py: split on
newlines, scan, join with newlines. -/
def fix_async_functions (content : String) : String :=
  String.intercalate "\n" (processLines (content.splitOn "\n"))

/-- Brace depth of a span after `n` lines of the tail have been accumulated:
the initial count 1 plus the per-line balances of the first `n` tail lines. -/
def depthAfter (xs : List String) (n : Nat) : Int :=
  1 + (List.map braceDelta (List.take n xs)).sum

/-- The accumulated `fn_body` text of a list of span lines: each line followed
by a newline, concatenated in order. -/
def joinNl : List String → String
  | [] => ""
  | l :: ls => l ++ "\n" ++ joinNl ls

/-- Statement of claim C1 at one scan position: the signature line is
modified if and only if the accumulated body contains the suspend-point
marker and the signature line does not already carry the async qualifier
(the script's reading of which is the substring test `'async fn' in line`). -/
def rewritesSignatureIffClaim (sig : String) (rest : List String) : Prop :=
  (processLines (sig :: rest)).head? ≠ some sig ↔
    (containsSubStr ".await" (takeSpan 1 rest).2.2 = true ∧
     containsSubStr "async fn" sig = false)

/-- Statement of claim C3 for the tail of one span: the collected span tail
is exactly the block of lines up to and including the first line at which the
running brace-depth counter returns to zero. -/
def spanEndsAtFirstZero (rest : List String) : Prop :=
  ∃ N, (takeSpan 1 rest).1 = List.take N rest ∧
       (takeSpan 1 rest).2.1 = List.drop N rest ∧
       depthAfter rest N = 0 ∧
       ∀ m, m < N → depthAfter rest m ≠ 0

/-- Text that `fn_pattern` can place before the introducer keyword: pure
indentation, or indentation followed by the visibility qualifier `pub` and at
least one further whitespace character. -/
def indentPub (pre : List Char) : Prop :=
  (∀ c ∈ pre, isPySpace c = true) ∨
  ∃ ws1 ws2, pre = ws1 ++ ('p' :: 'u' :: 'b' :: []) ++ ws2 ∧
    (∀ c ∈ ws1, isPySpace c = true) ∧ (∀ c ∈ ws2, isPySpace c = true) ∧
    ws2 ≠ []

/-- Statement of claim C5 for one rewritten signature line, on character
lists: the output line is the input line with the token `async ` inserted
immediately before the function-introducer keyword `fn`, everything else kept
verbatim.  The `fn` in question is the introducer, i.e. it is preceded only
by indentation and an optional visibility qualifier. -/
def onlyInsertsBeforeIntroducer (sig out : List Char) : Prop :=
  ∃ pre post, indentPub pre ∧
    sig = pre ++ ('f' :: 'n' :: []) ++ post ∧
    out = pre ++ ('a' :: 's' :: 'y' :: 'n' :: 'c' :: ' ' :: 'f' :: 'n' :: []) ++ post

/-- The two components returned by `takeSpan` partition the input lines. -/
theorem takeSpan_append (d : Int) (xs : List String) :
    (takeSpan d xs).1 ++ (takeSpan d xs).2.1 = xs := by
  induction xs generalizing d with
  | nil => simp [takeSpan]
  | cons x xs ih =>
    by_cases h : d ≤ 0
    · simp [takeSpan, h]
    · simp [takeSpan, h, ih]

/-- The lines remaining after a span are no more numerous than the input. -/
theorem takeSpan_rest_length (d : Int) (xs : List String) :
    (takeSpan d xs).2.1.length ≤ xs.length := by
  have h := congrArg List.length (takeSpan_append d xs)
  simp only [List.length_append] at h
  omega

/-- The accumulated body text is the newline-joined list of span lines. -/
theorem takeSpan_body (d : Int) (xs : List String) :
    (takeSpan d xs).2.2 = joinNl (takeSpan d xs).1 := by
  induction xs generalizing d with
  | nil => simp [takeSpan, joinNl]
  | cons x xs ih =>
    by_cases h : d ≤ 0
    · simp [takeSpan, h, joinNl]
    · simp [takeSpan, h, joinNl, ih]

/-- The scanning loop maps the empty line list to itself at any fuel. -/
theorem processAux_nil (n : Nat) : processAux n [] = [] := by
  cases n <;> rfl

/-- Any fuel of at least the number of lines gives the same scan result, so
`processAux` with fuel `lines.length` is a faithful rendering of the
unbounded while loop. -/
theorem processAux_fuel : ∀ (n m : Nat) (ls : List String),
    ls.length ≤ n → ls.length ≤ m → processAux n ls = processAux m ls := by
  intro n
  induction n with
  | zero =>
    intro m ls h _
    have hnil : ls = [] := List.length_eq_zero.mp (Nat.le_zero.mp h)
    subst hnil
    rw [processAux_nil, processAux_nil]
  | succ n ih =>
    intro m ls h hm
    cases ls with
    | nil => rw [processAux_nil, processAux_nil]
    | cons l rest =>
      have hrest : rest.length ≤ n := by
        simp only [List.length_cons] at h; omega
      cases m with
      | zero => simp at hm
      | succ m =>
        have hrestm : rest.length ≤ m := by
          simp only [List.length_cons] at hm; omega
        simp only [processAux]
        by_cases hl : matchesFnPattern l = true
        · rw [if_pos hl, if_pos hl]
          have h1 : (takeSpan 1 rest).2.1.length ≤ n :=
            le_trans (takeSpan_rest_length 1 rest) hrest
          have h2 : (takeSpan 1 rest).2.1.length ≤ m :=
            le_trans (takeSpan_rest_length 1 rest) hrestm
          rw [ih m _ h1 h2]
        · rw [if_neg hl, if_neg hl, ih m rest hrest hrestm]

/-- Scan equation: the empty file. -/
theorem processLines_nil : processLines [] = [] := rfl

/-- Scan equation at a non-matching line: the line is copied and the scan
continues with the next line. -/
theorem processLines_cons_neg {l : String} {rest : List String}
    (h : matchesFnPattern l = false) :
    processLines (l :: rest) = l :: processLines rest := by
  show processAux (l :: rest).length (l :: rest) = l :: processLines rest
  simp only [List.length_cons, processAux]
  rw [if_neg (by simp [h])]
  rfl

/-- Scan equation at a matching line: the span is collected, the signature
line is conditionally rewritten, the span is emitted and the scan continues
after the span. -/
theorem processLines_cons_pos {l : String} {rest : List String}
    (h : matchesFnPattern l = true) :
    processLines (l :: rest) =
      rewriteSigLine (takeSpan 1 rest).2.2 l ::
        (takeSpan 1 rest).1 ++ processLines (takeSpan 1 rest).2.1 := by
  show processAux (l :: rest).length (l :: rest) = _
  simp only [List.length_cons, processAux]
  rw [if_pos h]
  rw [processAux_fuel rest.length (takeSpan 1 rest).2.1.length _
        (takeSpan_rest_length 1 rest) (le_refl _)]
  rfl

/-- Per-line behaviour of the scanning loop at sufficient fuel: the output
has exactly as many lines as the input, and each output line is either the
input line of the same index, or the async edit of an input line that matched
the signature pattern and did not already contain `async fn`. -/
theorem processAux_line_spec : ∀ (n : Nat) (ls : List String), ls.length ≤ n →
    (processAux n ls).length = ls.length ∧
    ∀ k : Nat, (processAux n ls)[k]? = ls[k]? ∨
      ∃ l, ls[k]? = some l ∧ matchesFnPattern l = true ∧
        containsSubStr "async fn" l = false ∧
        (processAux n ls)[k]? = some (replaceFirstStr "fn " "async fn " l) := by
  intro n
  induction n with
  | zero =>
    intro ls h
    have hnil : ls = [] := List.length_eq_zero.mp (Nat.le_zero.mp h)
    subst hnil
    exact ⟨rfl, fun k => Or.inl rfl⟩
  | succ n ih =>
    intro ls h
    cases ls with
    | nil => exact ⟨by rw [processAux_nil], fun k => Or.inl (by rw [processAux_nil])⟩
    | cons l rest =>
      have hrest : rest.length ≤ n := by
        simp only [List.length_cons] at h; omega
      by_cases hl : matchesFnPattern l = true
      · have hsplit := takeSpan_append 1 rest
        have hrlen : (takeSpan 1 rest).2.1.length ≤ n :=
          le_trans (takeSpan_rest_length 1 rest) hrest
        obtain ⟨ihlen, ihspec⟩ := ih (takeSpan 1 rest).2.1 hrlen
        have hout : processAux (n + 1) (l :: rest) =
            rewriteSigLine (takeSpan 1 rest).2.2 l ::
              ((takeSpan 1 rest).1 ++ processAux n (takeSpan 1 rest).2.1) := by
          simp only [processAux]
          rw [if_pos hl]
          rfl
        constructor
        · rw [hout]
          have hlen2 := congrArg List.length hsplit
          simp only [List.length_append] at hlen2
          simp only [List.length_cons, List.length_append, ihlen]
          omega
        · intro k
          cases k with
          | zero =>
            rw [hout, List.getElem?_cons_zero, List.getElem?_cons_zero]
            by_cases hb : containsSubStr ".await" (takeSpan 1 rest).2.2 = true
            · by_cases ha : containsSubStr "async fn" l = true
              · left
                simp [rewriteSigLine, hb, ha]
              · right
                refine ⟨l, rfl, hl, by simpa using ha, ?_⟩
                simp [rewriteSigLine, hb, ha]
            · left
              simp [rewriteSigLine, hb]
          | succ k =>
            rw [hout, List.getElem?_cons_succ, List.getElem?_cons_succ]
            have hrk : rest[k]? = ((takeSpan 1 rest).1 ++ (takeSpan 1 rest).2.1)[k]? := by
              rw [hsplit]
            rw [hrk]
            by_cases hk : k < (takeSpan 1 rest).1.length
            · left
              rw [List.getElem?_append, List.getElem?_append, if_pos hk, if_pos hk]
            · have hk2 : (takeSpan 1 rest).1.length ≤ k := Nat.le_of_not_lt hk
              rw [List.getElem?_append_right hk2, List.getElem?_append_right hk2]
              exact ihspec (k - (takeSpan 1 rest).1.length)
      · have hl2 : matchesFnPattern l = false := by simpa using hl
        obtain ⟨ihlen, ihspec⟩ := ih rest hrest
        have hout : processAux (n + 1) (l :: rest) = l :: processAux n rest := by
          simp only [processAux]
          rw [if_neg hl]
        constructor
        · rw [hout]
          simp only [List.length_cons, ihlen]
        · intro k
          cases k with
          | zero =>
            left
            rw [hout, List.getElem?_cons_zero, List.getElem?_cons_zero]
          | succ k =>
            rw [hout, List.getElem?_cons_succ, List.getElem?_cons_succ]
            exact ihspec k

/-- Per-line behaviour of the scan: same number of lines, and each output
line is the input line or the async edit of a matched signature line that
did not already contain the qualifier. -/
theorem processLines_line_spec (ls : List String) :
    (processLines ls).length = ls.length ∧
    ∀ k : Nat, (processLines ls)[k]? = ls[k]? ∨
      ∃ l, ls[k]? = some l ∧ matchesFnPattern l = true ∧
        containsSubStr "async fn" l = false ∧
        (processLines ls)[k]? = some (replaceFirstStr "fn " "async fn " l) :=
  processAux_line_spec ls.length ls (le_refl _)

/-- When the pattern does not occur, Python's single-occurrence replace is
the identity. -/
theorem pyReplaceFirst_of_not_contains (pat repl : List Char) :
    ∀ s, listContainsSub pat s = false → pyReplaceFirst pat repl s = s := by
  intro s
  induction s with
  | nil =>
    intro h
    simp only [listContainsSub] at h
    simp [pyReplaceFirst, h]
  | cons c rest ih =>
    intro h
    simp only [listContainsSub, Bool.or_eq_false_iff] at h
    simp [pyReplaceFirst, h.1, ih h.2]

/-- Specification of Python's single-occurrence replace: the input splits
around the leftmost occurrence of the pattern, and the output substitutes the
replacement there, keeping everything else verbatim. -/
theorem pyReplaceFirst_spec (pat repl : List Char) (hne : ¬ pat = []) :
    ∀ s, listContainsSub pat s = true →
      ∃ pre post, s = pre ++ pat ++ post ∧
        pyReplaceFirst pat repl s = pre ++ repl ++ post ∧
        ∀ pre2 post2, s = pre2 ++ pat ++ post2 → pre.length ≤ pre2.length := by
  intro s
  induction s with
  | nil =>
    intro h
    simp only [listContainsSub, List.isEmpty_iff] at h
    exact absurd h hne
  | cons c rest ih =>
    intro h
    by_cases hp : pat.isPrefixOf (c :: rest) = true
    · obtain ⟨post, hpost⟩ := List.isPrefixOf_iff_prefix.mp hp
      refine ⟨[], post, by simp [← hpost], ?_, fun pre2 post2 _ => Nat.zero_le _⟩
      simp only [pyReplaceFirst, if_pos hp, List.nil_append]
      rw [← hpost, List.drop_left]
    · have h2 : listContainsSub pat rest = true := by
        simp only [listContainsSub, hp, Bool.false_or] at h
        exact h
      obtain ⟨pre, post, hs, hr, hmin⟩ := ih h2
      refine ⟨c :: pre, post, by simp [hs], ?_, ?_⟩
      · simp only [pyReplaceFirst, if_neg hp, hr, List.cons_append]
      · intro pre2 post2 heq
        cases pre2 with
        | nil =>
          exfalso
          apply hp
          rw [List.isPrefixOf_iff_prefix]
          exact ⟨post2, by simpa using heq.symm⟩
        | cons c2 pre2 =>
          simp only [List.cons_append, List.cons.injEq] at heq
          simp only [List.length_cons]
          exact Nat.succ_le_succ (hmin pre2 post2 heq.2)

/-- A pattern that begins a suffix of a list occurs in the list. -/
theorem listContainsSub_append_of_isPrefixOf (pat t : List Char)
    (hp : pat.isPrefixOf t = true) :
    ∀ a, listContainsSub pat (a ++ t) = true := by
  intro a
  induction a with
  | nil =>
    cases t with
    | nil =>
      have : pat = [] := List.prefix_nil.mp (List.isPrefixOf_iff_prefix.mp hp)
      simp [listContainsSub, this]
    | cons x xs => simp [listContainsSub, hp]
  | cons c a ih => simp [listContainsSub, ih]

/-- The rewritten signature line differs from the original exactly when the
original contains the literal `fn ` (keyword followed by a space): replacing
the first occurrence lengthens the line by six characters. -/
theorem replaceFirstStr_fn_ne (l : String) (h : containsSubStr "fn " l = true) :
    ¬ replaceFirstStr "fn " "async fn " l = l := by
  intro heq
  obtain ⟨pre, post, hs, hr, _⟩ :=
    pyReplaceFirst_spec ("fn ".toList) ("async fn ".toList) (by decide) l.toList h
  have hdata : pyReplaceFirst ("fn ".toList) ("async fn ".toList) l.toList = l.toList :=
    congrArg String.data heq
  rw [hr] at hdata
  rw [hs] at hdata
  have hlen := congrArg List.length hdata
  simp only [List.length_append] at hlen
  have h9 : ("async fn ".toList).length = 9 := by decide
  have h3 : ("fn ".toList).length = 3 := by decide
  rw [h9, h3] at hlen
  omega

/-- When the replacement fires, the result contains `async fn`. -/
theorem replaceFirstStr_contains_async (l : String) (h : containsSubStr "fn " l = true) :
    containsSubStr "async fn" (replaceFirstStr "fn " "async fn " l) = true := by
  obtain ⟨pre, post, _, hr, _⟩ :=
    pyReplaceFirst_spec ("fn ".toList) ("async fn ".toList) (by decide) l.toList h
  show listContainsSub ("async fn".toList) (replaceFirstStr "fn " "async fn " l).toList = true
  have hdata : (replaceFirstStr "fn " "async fn " l).toList =
      pre ++ ("async fn ".toList) ++ post := hr
  rw [hdata]
  have hsplit9 : ("async fn ".toList) = ("async fn".toList) ++ (' ' :: []) := by decide
  rw [hsplit9, List.append_assoc, List.append_assoc]
  apply listContainsSub_append_of_isPrefixOf
  rw [List.isPrefixOf_iff_prefix]
  exact ⟨(' ' :: []) ++ post, by simp⟩

/-- The span loop stops exactly at the first tail line whose accumulated
brace balance brings the count to zero or below, or at the end of the input
if the count stays positive throughout. -/
theorem takeSpan_first_nonpos (xs : List String) : ∀ d : Int, ∃ N,
    N ≤ xs.length ∧
    (takeSpan d xs).1 = List.take N xs ∧
    (takeSpan d xs).2.1 = List.drop N xs ∧
    (∀ m, m < N → 0 < d + (List.map braceDelta (List.take m xs)).sum) ∧
    (N < xs.length → d + (List.map braceDelta (List.take N xs)).sum ≤ 0) := by
  induction xs with
  | nil =>
    intro d
    refine ⟨0, le_refl _, by simp [takeSpan], by simp [takeSpan], ?_, ?_⟩
    · intro m hm; omega
    · intro h; simp at h
  | cons x xs ih =>
    intro d
    by_cases hd : d ≤ 0
    · refine ⟨0, Nat.zero_le _, by simp [takeSpan, hd], by simp [takeSpan, hd], ?_, ?_⟩
      · intro m hm; omega
      · intro _; simpa using hd
    · obtain ⟨N, hN, h1, h2, h3, h4⟩ := ih (d + braceDelta x)
      refine ⟨N + 1, by simpa using Nat.succ_le_succ hN, ?_, ?_, ?_, ?_⟩
      · simp [takeSpan, hd, h1, List.take_succ_cons]
      · simp [takeSpan, hd, h2, List.drop_succ_cons]
      · intro m hm
        cases m with
        | zero => simpa using lt_of_not_le hd
        | succ m =>
          have hm2 : m < N := Nat.lt_of_succ_lt_succ hm
          have := h3 m hm2
          simp only [List.take_succ_cons, List.map_cons, List.sum_cons]
          omega
      · intro hlt
        have hlt2 : N < xs.length := by simpa using Nat.lt_of_succ_lt_succ hlt
        have := h4 hlt2
        simp only [List.take_succ_cons, List.map_cons, List.sum_cons]
        omega

/-- Consuming a literal yields a suffix of the input. -/
theorem dropLit_suffix : ∀ (cs s r : List Char), dropLit cs s = some r → r <:+ s := by
  intro cs
  induction cs with
  | nil =>
    intro s r h
    simp only [dropLit, Option.some.injEq] at h
    rw [← h]
  | cons c cs ih =>
    intro s r h
    cases s with
    | nil => simp [dropLit] at h
    | cons x xs =>
      simp only [dropLit] at h
      by_cases hx : x = c
      · rw [if_pos hx] at h
        exact (ih xs r h).trans (List.suffix_cons x xs)
      · rw [if_neg hx] at h
        cases h

/-- The optional `pub` consumer yields a suffix of the input. -/
theorem dropPubOpt_suffix (s : List Char) : dropPubOpt s <:+ s := by
  unfold dropPubOpt
  cases hdl : dropLit ('p' :: 'u' :: 'b' :: []) s with
  | none => exact List.suffix_refl s
  | some s1 =>
    cases s1 with
    | nil => exact List.suffix_refl s
    | cons c cs =>
      dsimp only
      by_cases hc : isPySpace c = true
      · rw [if_pos hc]
        exact ((List.dropWhile_suffix isPySpace).trans (dropLit_suffix _ s _ hdl))
      · rw [if_neg hc]

/-- The `fn` plus name consumer yields a suffix of the input. -/
theorem dropFnName_suffix (s r : List Char) (h : dropFnName s = some r) : r <:+ s := by
  unfold dropFnName at h
  cases hdl : dropLit ('f' :: 'n' :: []) s with
  | none => rw [hdl] at h; cases h
  | some s1 =>
    rw [hdl] at h
    cases s1 with
    | nil => cases h
    | cons c cs =>
      dsimp only at h
      by_cases hc : isPySpace c = true
      · rw [if_pos hc] at h
        cases hds : dropSpaces (c :: cs) with
        | nil => rw [hds] at h; cases h
        | cons c2 rest2 =>
          rw [hds] at h
          dsimp only at h
          by_cases hw : isWordChar c2 = true
          · rw [if_pos hw] at h
            simp only [Option.some.injEq] at h
            rw [← h]
            have s1suf : List.dropWhile isWordChar (c2 :: rest2) <:+ c2 :: rest2 :=
              List.dropWhile_suffix isWordChar
            have s2suf : (c2 :: rest2 : List Char) <:+ c :: cs := by
              rw [← hds]; exact List.dropWhile_suffix isPySpace
            exact s1suf.trans (s2suf.trans (dropLit_suffix _ s _ hdl))
          · rw [if_neg hw] at h; cases h
      · rw [if_neg hc] at h; cases h

/-- The optional generics consumer yields a suffix of the input. -/
theorem dropGenericsOpt_suffix (s : List Char) : dropGenericsOpt s <:+ s := by
  unfold dropGenericsOpt
  cases s with
  | nil => exact List.suffix_refl _
  | cons x rest =>
    dsimp only
    by_cases hx : x = '<'
    · rw [if_pos hx]
      cases hdw : List.dropWhile (fun c => c != '>') rest with
      | nil => exact List.suffix_refl _
      | cons y rest2 =>
        dsimp only
        by_cases hy : y = '>'
        · rw [if_pos hy]
          by_cases he : (List.takeWhile (fun c => c != '>') rest).isEmpty = true
          · rw [if_pos he]
          · rw [if_neg he]
            have h1 : y :: rest2 <:+ rest := by
              rw [← hdw]; exact List.dropWhile_suffix _
            exact ((List.suffix_cons y rest2).trans h1).trans (List.suffix_cons x rest)
        · rw [if_neg hy]
    · rw [if_neg hx]

/-- The parameter-list consumer yields a suffix of the input. -/
theorem dropParams_suffix (s r : List Char) (h : dropParams s = some r) : r <:+ s := by
  unfold dropParams at h
  cases s with
  | nil => cases h
  | cons x rest =>
    dsimp only at h
    by_cases hx : x = '('
    · rw [if_pos hx] at h
      cases hdw : List.dropWhile (fun c => c != ')') rest with
      | nil => rw [hdw] at h; cases h
      | cons y rest2 =>
        rw [hdw] at h
        dsimp only at h
        by_cases hy : y = ')'
        · rw [if_pos hy] at h
          simp only [Option.some.injEq] at h
          rw [← h]
          have h1 : y :: rest2 <:+ rest := by
            rw [← hdw]; exact List.dropWhile_suffix _
          exact ((List.suffix_cons y rest2).trans h1).trans (List.suffix_cons x rest)
        · rw [if_neg hy] at h; cases h
    · rw [if_neg hx] at h; cases h

/-- A list whose head test for an opening brace succeeds contains one. -/
theorem headIsBrace_mem (t : List Char) (h : headIsBrace t = true) : '\x7b' ∈ t := by
  cases t with
  | nil => cases h
  | cons c u =>
    simp only [headIsBrace, beq_iff_eq] at h
    rw [h]
    exact List.mem_cons_self _ _

/-- A character list accepted by the regex tail contains an opening brace. -/
theorem tailMatches_brace (s : List Char) (h : tailMatches s = true) : '\x7b' ∈ s := by
  unfold tailMatches at h
  rw [Bool.or_eq_true] at h
  cases h with
  | inl h1 =>
    exact (List.dropWhile_suffix isPySpace).subset (headIsBrace_mem _ h1)
  | inr h2 =>
    cases hdl : dropLit ('-' :: '>' :: []) (dropSpaces s) with
    | none => rw [hdl] at h2; cases h2
    | some r =>
      rw [hdl] at h2
      rw [Bool.and_eq_true] at h2
      have hm := headIsBrace_mem _ h2.2
      have hm2 : '\x7b' ∈ r := (List.dropWhile_suffix _).subset hm
      have hm3 : '\x7b' ∈ dropSpaces s := (dropLit_suffix _ _ _ hdl).subset hm2
      exact (List.dropWhile_suffix isPySpace).subset hm3

/-- Every line matched by `fn_pattern` contains an opening brace: the regex
requires the brace on the same single line as the rest of the signature. -/
theorem matchesFnPattern_brace (line : String) (h : matchesFnPattern line = true) :
    '\x7b' ∈ line.toList := by
  unfold matchesFnPattern at h
  cases hfn : dropFnName (dropPubOpt (dropSpaces line.toList)) with
  | none => rw [hfn] at h; cases h
  | some s2 =>
    rw [hfn] at h
    dsimp only at h
    cases hpar : dropParams (dropGenericsOpt s2) with
    | none => rw [hpar] at h; cases h
    | some s4 =>
      rw [hpar] at h
      have hb := tailMatches_brace s4 h
      have hb2 : '\x7b' ∈ dropGenericsOpt s2 := (dropParams_suffix _ _ hpar).subset hb
      have hb3 : '\x7b' ∈ s2 := (dropGenericsOpt_suffix s2).subset hb2
      have hb4 : '\x7b' ∈ dropPubOpt (dropSpaces line.toList) :=
        (dropFnName_suffix _ _ hfn).subset hb3
      have hb5 : '\x7b' ∈ dropSpaces line.toList :=
        (dropPubOpt_suffix _).subset hb4
      exact (List.dropWhile_suffix isPySpace).subset hb5

/-- Dropping while a predicate holds skips over a block that satisfies it
throughout. -/
theorem dropWhile_append_all (p : Char → Bool) :
    ∀ (l1 l2 : List Char), (∀ c ∈ l1, p c = true) →
      List.dropWhile p (l1 ++ l2) = List.dropWhile p l2 := by
  intro l1
  induction l1 with
  | nil => intro l2 _; rw [List.nil_append]
  | cons c l1 ih =>
    intro l2 h
    rw [List.cons_append, List.dropWhile_cons, h c (List.mem_cons_self _ _)]
    exact ih l2 (fun x hx => h x (List.mem_cons_of_mem _ hx))

/-- Dropping whitespace stops at a non-whitespace head. -/
theorem dropSpaces_cons_false (c : Char) (rest : List Char) (hc : isPySpace c = false) :
    dropSpaces (c :: rest) = c :: rest := by
  unfold dropSpaces
  rw [List.dropWhile_cons, hc]
  rfl

/-- A line whose pattern matching fails at the introducer keyword does not
match the pattern at all. -/
theorem matchesFnPattern_eq_false_of_none (line : String)
    (h : dropFnName (dropPubOpt (dropSpaces line.toList)) = none) :
    matchesFnPattern line = false := by
  unfold matchesFnPattern
  rw [h]

/-- The introducer consumer fails when the input does not start with `f`. -/
theorem dropFnName_none (c : Char) (rest : List Char) (hc : ¬ c = 'f') :
    dropFnName (c :: rest) = none := by
  unfold dropFnName
  have h1 : dropLit ('f' :: 'n' :: []) (c :: rest) = none := by
    unfold dropLit
    rw [if_neg hc]
  rw [h1]

/-- The optional `pub` consumer leaves input not starting with `p` alone. -/
theorem dropPubOpt_eq_self_of_ne (c : Char) (rest : List Char) (hc : ¬ c = 'p') :
    dropPubOpt (c :: rest) = c :: rest := by
  unfold dropPubOpt
  have h1 : dropLit ('p' :: 'u' :: 'b' :: []) (c :: rest) = none := by
    unfold dropLit
    rw [if_neg hc]
  rw [h1]

/-- The optional `pub` consumer leaves `pub` followed by a non-whitespace
character alone: the group `(pub\s+)?` cannot complete there. -/
theorem dropPubOpt_pub_nospace (c : Char) (rest : List Char) (hc : isPySpace c = false) :
    dropPubOpt ('p' :: 'u' :: 'b' :: c :: rest) = 'p' :: 'u' :: 'b' :: c :: rest := by
  unfold dropPubOpt
  have h1 : dropLit ('p' :: 'u' :: 'b' :: []) ('p' :: 'u' :: 'b' :: c :: rest) =
      some (c :: rest) := rfl
  rw [h1]
  dsimp only
  rw [hc]
  rfl

/-- The optional `pub` consumer consumes `pub` and the following whitespace
run when at least one whitespace character follows. -/
theorem dropPubOpt_pub_space (c : Char) (rest : List Char) (hc : isPySpace c = true) :
    dropPubOpt ('p' :: 'u' :: 'b' :: c :: rest) = dropSpaces (c :: rest) := by
  unfold dropPubOpt
  have h1 : dropLit ('p' :: 'u' :: 'b' :: []) ('p' :: 'u' :: 'b' :: c :: rest) =
      some (c :: rest) := rfl
  rw [h1]
  dsimp only
  rw [hc]
  rfl

/-- Dropping whitespace passes over a whitespace head. -/
theorem dropSpaces_cons_true (c : Char) (rest : List Char) (hc : isPySpace c = true) :
    dropSpaces (c :: rest) = dropSpaces rest := by
  unfold dropSpaces
  rw [List.dropWhile_cons, hc]
  rfl

/-- Dropping whitespace skips a leading all-whitespace block. -/
theorem dropSpaces_append_all (ws l2 : List Char) (h : ∀ c ∈ ws, isPySpace c = true) :
    dropSpaces (ws ++ l2) = dropSpaces l2 := by
  unfold dropSpaces
  exact dropWhile_append_all isPySpace ws l2 h

/-- Replacement with an absent pattern is the identity, on strings. -/
theorem replaceFirstStr_of_not_contains (pat repl l : String)
    (h : containsSubStr pat l = false) : replaceFirstStr pat repl l = l := by
  unfold replaceFirstStr
  have h2 : listContainsSub pat.toList l.toList = false := h
  rw [pyReplaceFirst_of_not_contains _ _ _ h2]
  rfl

/-- Claim C1, counterexample.  The line `fn<TAB>f() {` (tab after the
introducer) matches the signature pattern, its body contains `.await`, and it
does not contain `async fn`; yet the rewriter leaves it unchanged, because
the edit requires the literal substring `fn ` (keyword followed by a space),
which this line lacks.  So the as-stated if-and-only-if is false. -/
theorem C1_counterexample :
    matchesFnPattern "fn\tf() \x7b" = true ∧
    ¬ rewritesSignatureIffClaim "fn\tf() \x7b" ("x.await;" :: "\x7d" :: []) := by
  constructor
  · decide
  · unfold rewritesSignatureIffClaim
    decide

/-- Claim C1, amended.  For every matched signature line, the rewriter
modifies it if and only if the body (excluding the signature line) contains
`.await` as a substring, the line does not contain `async fn` as a substring,
and additionally the line contains the literal `fn ` (the introducer keyword
followed by a space), which the replacement needs in order to fire. -/
theorem C1_amended_marker_gated_rewrite (sig : String) (rest : List String)
    (h : matchesFnPattern sig = true) :
    ((processLines (sig :: rest)).head? ≠ some sig ↔
      (containsSubStr ".await" (takeSpan 1 rest).2.2 = true ∧
       containsSubStr "async fn" sig = false ∧
       containsSubStr "fn " sig = true)) := by
  rw [processLines_cons_pos h, List.cons_append, List.head?_cons]
  unfold rewriteSigLine
  by_cases hb : containsSubStr ".await" (takeSpan 1 rest).2.2 = true
  · rw [if_pos hb]
    by_cases ha : containsSubStr "async fn" sig = true
    · rw [if_pos ha]
      simp [ha]
    · rw [if_neg ha]
      have ha2 : containsSubStr "async fn" sig = false := by simpa using ha
      by_cases hf : containsSubStr "fn " sig = true
      · have hne := replaceFirstStr_fn_ne sig hf
        simp only [ne_eq, Option.some.injEq]
        constructor
        · intro _; exact ⟨hb, ha2, hf⟩
        · intro _; exact hne
      · have hf2 : containsSubStr "fn " sig = false := by simpa using hf
        rw [replaceFirstStr_of_not_contains _ _ _ hf2]
        simp [hf2]
  · rw [if_neg hb]
    have hb2 : containsSubStr ".await" (takeSpan 1 rest).2.2 = false := by simpa using hb
    simp [hb2]

/-- Claim C1, witness for the amended theorem at a concrete input. -/
theorem C1_amended_witness :
    matchesFnPattern "fn f() \x7b" = true ∧
    ((processLines ("fn f() \x7b" :: "x.await;" :: "\x7d" :: [])).head? ≠
        some "fn f() \x7b" ↔
      (containsSubStr ".await" (takeSpan 1 ("x.await;" :: "\x7d" :: [])).2.2 = true ∧
       containsSubStr "async fn" "fn f() \x7b" = false ∧
       containsSubStr "fn " "fn f() \x7b" = true)) :=
  ⟨by decide, C1_amended_marker_gated_rewrite "fn f() \x7b" ("x.await;" :: "\x7d" :: [])
      (by decide)⟩

/-- Claim C2, counterexample.  The transformation is not idempotent: in a
nested-function file the first pass makes the outer function async and
consumes the inner signature inside the outer span; the second pass no longer
recognizes the now-async outer line, scans into its body, and rewrites the
nested signature, so the second output differs from the first. -/
theorem C2_counterexample :
    ¬ (processLines (processLines
        ("fn outer() \x7b" :: "    fn inner() \x7b" :: "        x.await;" ::
          "    \x7d" :: "\x7d" :: [])) =
       processLines
        ("fn outer() \x7b" :: "    fn inner() \x7b" :: "        x.await;" ::
          "    \x7d" :: "\x7d" :: [])) := by
  decide

/-- Claim C2, amended.  No signature line ever receives a duplicate async
qualifier: any line changed by one application of the transformation (such a
line then contains `async fn`) is left unchanged at the same position by a
second application.  Full idempotence fails only through newly scanned
nested signatures, as the counterexample shows. -/
theorem C2_amended_no_double_qualifier (lines : List String) (k : Nat)
    (h : ¬ (processLines lines)[k]? = lines[k]?) :
    (processLines (processLines lines))[k]? = (processLines lines)[k]? := by
  obtain ⟨_, hspec⟩ := processLines_line_spec lines
  rcases hspec k with heq | ⟨l, hin, _, _, hout⟩
  · exact absurd heq h
  · obtain ⟨_, hspec2⟩ := processLines_line_spec (processLines lines)
    rcases hspec2 k with heq2 | ⟨l2, hin2, _, hna2, _⟩
    · exact heq2
    · exfalso
      rw [hout] at hin2
      injection hin2 with hl2
      by_cases hf : containsSubStr "fn " l = true
      · have hca := replaceFirstStr_contains_async l hf
        rw [hl2, hna2] at hca
        cases hca
      · have hf2 : containsSubStr "fn " l = false := by simpa using hf
        have hid := replaceFirstStr_of_not_contains "fn " "async fn " l hf2
        rw [hid] at hout
        rw [hout, ← hin] at h
        exact h rfl

/-- Claim C2, witness for the amended theorem at a concrete input. -/
theorem C2_amended_witness :
    ¬ (processLines ("fn f() \x7b" :: "x.await;" :: "\x7d" :: []))[0]? =
        ("fn f() \x7b" :: "x.await;" :: "\x7d" :: [])[0]? ∧
    (processLines (processLines ("fn f() \x7b" :: "x.await;" :: "\x7d" :: [])))[0]? =
      (processLines ("fn f() \x7b" :: "x.await;" :: "\x7d" :: []))[0]? :=
  ⟨by decide,
   C2_amended_no_double_qualifier ("fn f() \x7b" :: "x.await;" :: "\x7d" :: []) 0
     (by decide)⟩

/-- Claim C3, counterexample.  After the signature the tail `}}`, `{` sends
the running count from 1 directly to −1: the loop stops after `}}` although
the count never equals zero there (it only returns to zero one line later, at
`{`, which is outside the collected span).  So the span does not end at the
first line at which the counter returns to zero, as the claim states. -/
theorem C3_counterexample :
    matchesFnPattern "fn f() \x7b" = true ∧
    ¬ spanEndsAtFirstZero ("\x7d\x7d" :: "\x7b" :: []) := by
  refine ⟨by decide, ?_⟩
  rintro ⟨N, h1, h2, h3, _⟩
  have ht : (takeSpan 1 ("\x7d\x7d" :: "\x7b" :: [])).1 = ("\x7d\x7d" :: []) := by
    decide
  rw [ht] at h1
  cases N with
  | zero =>
    rw [List.take_zero] at h1
    simp at h1
  | succ N =>
    cases N with
    | zero =>
      have hd : depthAfter ("\x7d\x7d" :: "\x7b" :: []) 1 = -1 := by decide
      rw [hd] at h3
      exact absurd h3 (by decide)
    | succ N =>
      rw [List.take_succ_cons, List.take_succ_cons, List.take_nil] at h1
      simp at h1

/-- Claim C3, amended.  For every matched signature line, the collected span
tail is exactly the lines up to and including the first subsequent line at
which the running brace-depth counter (initialized to 1 on the signature
line) becomes zero or negative — or, if the counter stays positive, the span
extends to the end of the input.  Nested brace pairs never close the span
early, since the count stays positive across them. -/
theorem C3_amended_span_integrity (sig : String) (rest : List String)
    (h : matchesFnPattern sig = true) :
    ∃ N, N ≤ rest.length ∧
      (takeSpan 1 rest).1 = List.take N rest ∧
      (takeSpan 1 rest).2.1 = List.drop N rest ∧
      (∀ m, m < N → 0 < depthAfter rest m) ∧
      (N < rest.length → depthAfter rest N ≤ 0) := by
  obtain ⟨N, hN, h1, h2, h3, h4⟩ := takeSpan_first_nonpos rest 1
  exact ⟨N, hN, h1, h2, h3, h4⟩

/-- Claim C3, witness for the amended theorem: a body with a nested brace
pair, whose span closes at the third tail line, not at the inner `}`. -/
theorem C3_amended_witness :
    matchesFnPattern "fn f() \x7b" = true ∧
    ∃ N, N ≤ ("    if x \x7b" :: "    \x7d" :: "\x7d" :: []).length ∧
      (takeSpan 1 ("    if x \x7b" :: "    \x7d" :: "\x7d" :: [])).1 =
        List.take N ("    if x \x7b" :: "    \x7d" :: "\x7d" :: []) ∧
      (takeSpan 1 ("    if x \x7b" :: "    \x7d" :: "\x7d" :: [])).2.1 =
        List.drop N ("    if x \x7b" :: "    \x7d" :: "\x7d" :: []) ∧
      (∀ m, m < N → 0 < depthAfter ("    if x \x7b" :: "    \x7d" :: "\x7d" :: []) m) ∧
      (N < ("    if x \x7b" :: "    \x7d" :: "\x7d" :: []).length →
        depthAfter ("    if x \x7b" :: "    \x7d" :: "\x7d" :: []) N ≤ 0) :=
  ⟨by decide,
   C3_amended_span_integrity "fn f() \x7b" ("    if x \x7b" :: "    \x7d" :: "\x7d" :: [])
     (by decide)⟩

/-- Claim C4.  The scan preserves the number and order of lines, and every
output line either is byte-identical to the input line at the same index or
is the async edit of an input line that matched the signature pattern and did
not already contain the qualifier: the only textual change anywhere is the
edit on rewritten signature lines. -/
theorem C4_verbatim_outside_edit (lines : List String) :
    (processLines lines).length = lines.length ∧
    ∀ k : Nat, (processLines lines)[k]? = lines[k]? ∨
      ∃ l, lines[k]? = some l ∧ matchesFnPattern l = true ∧
        containsSubStr "async fn" l = false ∧
        (processLines lines)[k]? = some (replaceFirstStr "fn " "async fn " l) :=
  processLines_line_spec lines

/-- Claim C5, counterexample.  The line `fn<TAB>call(f: fn x) {` matches the
pattern (tab after the introducer), and its span body contains `.await`, so a
rewrite occurs; but the first occurrence of the substring `fn ` lies inside
the parameter list, so the qualifier is inserted there — not immediately
before the introducer keyword — producing `fn<TAB>call(f: async fn x) {`. -/
theorem C5_counterexample :
    (processLines ("fn\tcall(f: fn x) \x7b" :: "y.await;" :: "\x7d" :: [])).head? =
      some "fn\tcall(f: async fn x) \x7b" ∧
    ¬ ("fn\tcall(f: async fn x) \x7b" : String) = "fn\tcall(f: fn x) \x7b" ∧
    ¬ onlyInsertsBeforeIntroducer ("fn\tcall(f: fn x) \x7b").toList
        ("fn\tcall(f: async fn x) \x7b").toList := by
  refine ⟨by decide, by decide, ?_⟩
  rintro ⟨pre, post, hip, hsig, hout⟩
  cases pre with
  | nil =>
    have h0 : (("fn\tcall(f: async fn x) \x7b").toList)[0]? = some 'f' := by decide
    rw [hout, List.nil_append, List.cons_append, List.getElem?_cons_zero] at h0
    injection h0 with h0
    exact absurd h0 (by decide)
  | cons c pre2 =>
    have h0 : (("fn\tcall(f: fn x) \x7b").toList)[0]? = some 'f' := by decide
    rw [hsig, List.cons_append, List.cons_append, List.getElem?_cons_zero] at h0
    injection h0 with h0
    subst h0
    cases hip with
    | inl hws =>
      exact absurd (hws 'f' (List.mem_cons_self _ _)) (by decide)
    | inr hpub =>
      obtain ⟨ws1, ws2, hpre, hws1, _, _⟩ := hpub
      cases ws1 with
      | nil =>
        rw [List.nil_append, List.cons_append] at hpre
        injection hpre with hp _
        exact absurd hp (by decide)
      | cons w ws1b =>
        rw [List.cons_append, List.cons_append] at hpre
        injection hpre with hp _
        have hwsp := hws1 w (List.mem_cons_self _ _)
        rw [← hp] at hwsp
        exact absurd hwsp (by decide)

/-- Claim C5, amended.  When a rewrite changes a matched signature line, the
only change is the replacement of the first occurrence of the substring
`fn ` (introducer keyword followed by a space) by `async fn `, i.e. the
insertion of the token `async ` immediately before that first occurrence;
everything before and after it is preserved verbatim.  When the introducer
keyword itself is followed by a space, it is that first occurrence, and the
insertion lands immediately before the introducer. -/
theorem C5_amended_insertion_at_first_fn (sig : String) (rest : List String)
    (h : matchesFnPattern sig = true)
    (hch : ¬ (processLines (sig :: rest)).head? = some sig) :
    ∃ pre post,
      sig.toList = pre ++ ("fn ").toList ++ post ∧
      (processLines (sig :: rest)).head? =
        some (String.mk (pre ++ ("async fn ").toList ++ post)) ∧
      ∀ pre2 post2, sig.toList = pre2 ++ ("fn ").toList ++ post2 →
        pre.length ≤ pre2.length := by
  rw [processLines_cons_pos h, List.cons_append, List.head?_cons] at hch ⊢
  unfold rewriteSigLine at hch ⊢
  by_cases hb : containsSubStr ".await" (takeSpan 1 rest).2.2 = true
  · rw [if_pos hb] at hch ⊢
    by_cases ha : containsSubStr "async fn" sig = true
    · rw [if_pos ha] at hch
      exact absurd rfl hch
    · rw [if_neg ha] at hch ⊢
      have hf : containsSubStr "fn " sig = true := by
        by_contra hf
        have hf2 : containsSubStr "fn " sig = false := by simpa using hf
        rw [replaceFirstStr_of_not_contains _ _ _ hf2] at hch
        exact hch rfl
      obtain ⟨pre, post, hs, hr, hmin⟩ :=
        pyReplaceFirst_spec (("fn ").toList) (("async fn ").toList) (by decide)
          sig.toList hf
      refine ⟨pre, post, hs, ?_, hmin⟩
      show some (replaceFirstStr "fn " "async fn " sig) = _
      unfold replaceFirstStr
      rw [hr]
  · rw [if_neg hb] at hch
    exact absurd rfl hch

/-- Claim C5, witness for the amended theorem: the usual `pub fn` signature,
where the first `fn ` occurrence is the introducer itself. -/
theorem C5_amended_witness :
    matchesFnPattern "pub fn g() \x7b" = true ∧
    ¬ (processLines ("pub fn g() \x7b" :: "    y.await;" :: "\x7d" :: [])).head? =
        some "pub fn g() \x7b" ∧
    ∃ pre post,
      ("pub fn g() \x7b").toList = pre ++ ("fn ").toList ++ post ∧
      (processLines ("pub fn g() \x7b" :: "    y.await;" :: "\x7d" :: [])).head? =
        some (String.mk (pre ++ ("async fn ").toList ++ post)) ∧
      ∀ pre2 post2, ("pub fn g() \x7b").toList = pre2 ++ ("fn ").toList ++ post2 →
        pre.length ≤ pre2.length :=
  ⟨by decide, by decide,
   C5_amended_insertion_at_first_fn "pub fn g() \x7b"
     ("    y.await;" :: "\x7d" :: []) (by decide) (by decide)⟩

/-- Claim C6.  A line that does not contain an opening brace — in particular
a signature whose opening brace sits on a following line — never matches the
signature pattern and passes through the rewriter byte-identically, even if
the function's body contains the marker. -/
theorem C6_brace_on_same_line_required (lines : List String) (k : Nat) (l : String)
    (hk : lines[k]? = some l) (hnb : ¬ '\x7b' ∈ l.toList) :
    matchesFnPattern l = false ∧ (processLines lines)[k]? = some l := by
  have hm : matchesFnPattern l = false := by
    by_contra hm
    have hm2 : matchesFnPattern l = true := by simpa using hm
    exact hnb (matchesFnPattern_brace l hm2)
  refine ⟨hm, ?_⟩
  obtain ⟨_, hspec⟩ := processLines_line_spec lines
  rcases hspec k with heq | ⟨l2, hin, hm2, _, _⟩
  · rw [heq, hk]
  · have : some l = some l2 := hk.symm.trans hin
    injection this with h2
    rw [← h2] at hm2
    rw [hm2] at hm
    cases hm

/-- Claim C6, witness: a signature split over two lines, with the marker in
the body, is not recognized and survives unchanged. -/
theorem C6_witness :
    ¬ '\x7b' ∈ ("fn f()" : String).toList ∧
    matchesFnPattern "fn f()" = false ∧
    (processLines ("fn f()" :: "\x7b" :: "    x.await;" :: "\x7d" :: []))[0]? =
      some "fn f()" :=
  ⟨by decide,
   (C6_brace_on_same_line_required
     ("fn f()" :: "\x7b" :: "    x.await;" :: "\x7d" :: []) 0 "fn f()"
     (by decide) (by decide)).1,
   (C6_brace_on_same_line_required
     ("fn f()" :: "\x7b" :: "    x.await;" :: "\x7d" :: []) 0 "fn f()"
     (by decide) (by decide)).2⟩

/-- Claim C7.  Once a span opens at a matched signature line, every line
inside the span is emitted verbatim — nested signatures inside the span are
never independently matched or rewritten — and when the span's body contains
no marker the signature line itself is also left unchanged. -/
theorem C7_span_consumed_wholesale (sig : String) (rest : List String)
    (h : matchesFnPattern sig = true) :
    (∀ k, k < (takeSpan 1 rest).1.length →
       (processLines (sig :: rest))[k + 1]? = rest[k]?) ∧
    (containsSubStr ".await" (takeSpan 1 rest).2.2 = false →
       (processLines (sig :: rest))[0]? = some sig) := by
  constructor
  · intro k hk
    rw [processLines_cons_pos h, List.cons_append, List.getElem?_cons_succ]
    have hrk : rest[k]? = ((takeSpan 1 rest).1 ++ (takeSpan 1 rest).2.1)[k]? := by
      rw [takeSpan_append]
    rw [hrk, List.getElem?_append, List.getElem?_append, if_pos hk, if_pos hk]
  · intro hb
    rw [processLines_cons_pos h, List.cons_append, List.getElem?_cons_zero]
    unfold rewriteSigLine
    rw [hb, if_neg (by decide : ¬ false = true)]

/-- Claim C7, witness: an outer function without the marker whose body holds
a nested matching signature; the whole span, signature included, is
unchanged, and the inner line passes through verbatim. -/
theorem C7_witness :
    matchesFnPattern "fn outer() \x7b" = true ∧
    0 < (takeSpan 1 ("    fn inner() \x7b" :: "    \x7d" :: "\x7d" :: [])).1.length ∧
    containsSubStr ".await"
      (takeSpan 1 ("    fn inner() \x7b" :: "    \x7d" :: "\x7d" :: [])).2.2 = false ∧
    (processLines ("fn outer() \x7b" :: "    fn inner() \x7b" :: "    \x7d" :: "\x7d" :: []))[0 + 1]? =
      some "    fn inner() \x7b" ∧
    (processLines ("fn outer() \x7b" :: "    fn inner() \x7b" :: "    \x7d" :: "\x7d" :: []))[0]? =
      some "fn outer() \x7b" := by
  refine ⟨by decide, by decide, by decide, ?_, ?_⟩
  · have := (C7_span_consumed_wholesale "fn outer() \x7b"
      ("    fn inner() \x7b" :: "    \x7d" :: "\x7d" :: []) (by decide)).1 0 (by decide)
    rw [this]
    decide
  · exact (C7_span_consumed_wholesale "fn outer() \x7b"
      ("    fn inner() \x7b" :: "    \x7d" :: "\x7d" :: []) (by decide)).2 (by decide)

/-- Claim C8.  The depth counter starts at 1 regardless of the brace content
of the signature line: everything emitted after the signature line depends
only on the following lines, so two matched signatures with different brace
counts yield the same tail; and a function whose body opens and closes on the
signature line (`fn f() { g(); }`) still has its span extended into the
following lines, here absorbing an `.await` two lines later. -/
theorem C8_signature_braces_not_counted :
    (∀ (sig1 sig2 : String) (rest : List String),
        matchesFnPattern sig1 = true → matchesFnPattern sig2 = true →
        List.drop 1 (processLines (sig1 :: rest)) =
          List.drop 1 (processLines (sig2 :: rest))) ∧
    processLines ("fn f() \x7b g(); \x7d" :: "x.await;" :: "\x7d" :: []) =
      ("async fn f() \x7b g(); \x7d" :: "x.await;" :: "\x7d" :: []) := by
  constructor
  · intro sig1 sig2 rest h1 h2
    rw [processLines_cons_pos h1, processLines_cons_pos h2,
      List.cons_append, List.cons_append, List.drop_succ_cons, List.drop_succ_cons,
      List.drop_zero]
  · decide

/-- Claim C8, witness: two matched signatures, one with a brace pair on the
signature line and one without, produce identical output tails. -/
theorem C8_witness :
    matchesFnPattern "fn a() \x7b \x7d" = true ∧
    matchesFnPattern "fn b() \x7b" = true ∧
    List.drop 1 (processLines ("fn a() \x7b \x7d" :: "x.await;" :: "\x7d" :: [])) =
      List.drop 1 (processLines ("fn b() \x7b" :: "x.await;" :: "\x7d" :: [])) :=
  ⟨by decide, by decide,
   C8_signature_braces_not_counted.1 "fn a() \x7b \x7d" "fn b() \x7b"
     ("x.await;" :: "\x7d" :: []) (by decide) (by decide)⟩

/-- Claim C9.  A signature line already carrying the async qualifier — after
any indentation `async fn ...`, or `pub`, whitespace and `async fn ...` —
never matches the pattern: the literal `fn` of the pattern meets the `a` of
`async` and fails.  Consequently such a line is copied one line at a time,
and a nested signature inside an already-async function's body is
individually matched and rewritten, as the concrete file shows. -/
theorem C9_async_signature_never_matches :
    (∀ (ws r : List Char), (∀ c ∈ ws, isPySpace c = true) →
       matchesFnPattern (String.mk (ws ++
         ('a' :: 's' :: 'y' :: 'n' :: 'c' :: ' ' :: 'f' :: 'n' :: []) ++ r)) = false) ∧
    (∀ (ws ws1 r : List Char), (∀ c ∈ ws, isPySpace c = true) →
       (∀ c ∈ ws1, isPySpace c = true) →
       matchesFnPattern (String.mk (ws ++ ('p' :: 'u' :: 'b' :: []) ++ ws1 ++
         ('a' :: 's' :: 'y' :: 'n' :: 'c' :: ' ' :: 'f' :: 'n' :: []) ++ r)) = false) ∧
    processLines ("async fn outer() \x7b" :: "    fn inner() \x7b" ::
        "        x.await;" :: "    \x7d" :: "\x7d" :: []) =
      ("async fn outer() \x7b" :: "    async fn inner() \x7b" ::
        "        x.await;" :: "    \x7d" :: "\x7d" :: []) := by
  refine ⟨?_, ?_, by decide⟩
  · intro ws r hws
    apply matchesFnPattern_eq_false_of_none
    show dropFnName (dropPubOpt (dropSpaces (ws ++
      ('a' :: 's' :: 'y' :: 'n' :: 'c' :: ' ' :: 'f' :: 'n' :: []) ++ r))) = none
    rw [List.append_assoc, dropSpaces_append_all ws _ hws]
    simp only [List.cons_append, List.nil_append]
    rw [dropSpaces_cons_false 'a' _ (by decide),
      dropPubOpt_eq_self_of_ne 'a' _ (by decide)]
    exact dropFnName_none 'a' _ (by decide)
  · intro ws ws1 r hws hws1
    apply matchesFnPattern_eq_false_of_none
    show dropFnName (dropPubOpt (dropSpaces (ws ++ ('p' :: 'u' :: 'b' :: []) ++ ws1 ++
      ('a' :: 's' :: 'y' :: 'n' :: 'c' :: ' ' :: 'f' :: 'n' :: []) ++ r))) = none
    rw [List.append_assoc, List.append_assoc, List.append_assoc,
      dropSpaces_append_all ws _ hws]
    simp only [List.cons_append, List.nil_append]
    rw [dropSpaces_cons_false 'p' _ (by decide)]
    cases ws1 with
    | nil =>
      rw [List.nil_append]
      rw [dropPubOpt_pub_nospace 'a' _ (by decide)]
      exact dropFnName_none 'p' _ (by decide)
    | cons w ws1b =>
      simp only [List.cons_append]
      have hw : isPySpace w = true := hws1 w (List.mem_cons_self _ _)
      rw [dropPubOpt_pub_space w _ hw, dropSpaces_cons_true w _ hw,
        dropSpaces_append_all ws1b _ (fun c hc => hws1 c (List.mem_cons_of_mem _ hc))]
      rw [dropSpaces_cons_false 'a' _ (by decide)]
      exact dropFnName_none 'a' _ (by decide)

/-- Claim C9, witness: the general part applied at an empty indentation and a
concrete signature remainder. -/
theorem C9_witness :
    (∀ c ∈ ([] : List Char), isPySpace c = true) ∧
    matchesFnPattern (String.mk (([] : List Char) ++
      ('a' :: 's' :: 'y' :: 'n' :: 'c' :: ' ' :: 'f' :: 'n' :: []) ++
      (' ' :: 'o' :: 'u' :: 't' :: 'e' :: 'r' :: '(' :: ')' :: ' ' :: '\x7b' :: []))) =
      false :=
  ⟨by simp,
   C9_async_signature_never_matches.1 []
     (' ' :: 'o' :: 'u' :: 't' :: 'e' :: 'r' :: '(' :: ')' :: ' ' :: '\x7b' :: [])
     (by simp)⟩

/-- Claim C10.  On an unterminated span — the depth counter stays positive
through the whole remainder of the file — the scan silently consumes every
remaining line, the marker test and conditional qualifier insertion are still
applied to that truncated span, and the rewriter returns normally (the
embedding is a total function; the loop's `j < len(lines)` guard makes the
out-of-lines case an ordinary exit, not an error). -/
theorem C10_unterminated_span_runs_to_eof (sig : String) (rest : List String)
    (h : matchesFnPattern sig = true)
    (hpos : ∀ n, n ≤ rest.length → 0 < depthAfter rest n) :
    (takeSpan 1 rest).1 = rest ∧ (takeSpan 1 rest).2.1 = [] ∧
    processLines (sig :: rest) = rewriteSigLine (joinNl rest) sig :: rest := by
  obtain ⟨N, hN, h1, h2, h3, h4⟩ := takeSpan_first_nonpos rest 1
  have hNlen : N = rest.length := by
    by_contra hne
    have hlt : N < rest.length := lt_of_le_of_ne hN hne
    have hle := h4 hlt
    have hgt : (0 : Int) < 1 + (List.map braceDelta (List.take N rest)).sum :=
      hpos N (le_of_lt hlt)
    omega
  subst hNlen
  rw [List.take_length] at h1
  rw [List.drop_length] at h2
  refine ⟨h1, h2, ?_⟩
  rw [processLines_cons_pos h, takeSpan_body 1 rest, h1, h2, processLines_nil,
    List.cons_append, List.append_nil]

/-- Claim C10, witness: a signature whose brace is never closed; the single
remaining line is consumed, the marker is found, and the qualifier is
inserted. -/
theorem C10_witness :
    matchesFnPattern "fn f() \x7b" = true ∧
    (∀ n, n ≤ ("x.await;" :: []).length → 0 < depthAfter ("x.await;" :: []) n) ∧
    ((takeSpan 1 ("x.await;" :: [])).1 = ("x.await;" :: []) ∧
     (takeSpan 1 ("x.await;" :: [])).2.1 = [] ∧
     processLines ("fn f() \x7b" :: "x.await;" :: []) =
       rewriteSigLine (joinNl ("x.await;" :: [])) "fn f() \x7b" :: ("x.await;" :: [])) :=
  ⟨by decide, by decide,
   C10_unterminated_span_runs_to_eof "fn f() \x7b" ("x.await;" :: [])
     (by decide) (by decide)⟩
